import Mathlib

/-!
Shallow embedding of `sherpa/resultstable.py` (classes `AbstractResultsTable`
and `ResultsTable`) and proofs about the trial-ledger operations.

Modelling conventions:
* Metric readings and hyperparameter numbers are rationals (`ℚ`); the stored
  `Loss` is `WithTop ℚ`, with `⊤` standing for Python's `np.inf` sentinel.
* The pandas `DataFrame` is a `List Row` kept in the frame's current row
  order; the row labels (`df.index`) coincide with the `ID` column, exactly
  as the source sets `index=[index]` on each appended line.
* The file system is a function `Files : String → Option Artifact`; `none`
  models a history file that cannot be opened/read (the source's `OSError`
  branch around `open`/`pkl.load`).
* Python exceptions are values of `Err`.  Operations whose source can raise
  after an in-place mutation return `State × Option Err` (the post-state the
  caller observes together with the exception, if any); operations that can
  only raise before any mutation return `Except Err _`.
* `pd.DataFrame.sort_values(by=['Loss'])` is modelled as a stable insertion
  sort.  (numpy's default sort runs its stable insertion-sort path on the
  small frames considered here, and every concrete evaluation below involves
  at most three rows.)
-/

namespace Sherpa

/-- A hyperparameter value: heterogeneous scalars, strings, or structured
values (lists / dicts, whose elements are abstracted to rationals).  The
structured forms are the ones `_set` serializes to strings. -/
inductive HPVal where
  | num (q : ℚ)
  | str (s : String)
  | listV (l : List ℚ)
  | dictV (l : List (String × ℚ))
deriving DecidableEq

/-- A hyperparameter mapping (Python dict), as an association list. -/
abbrev HP := List (String × HPVal)

/-- Python `str(...)` rendering of a list value (the exact text is irrelevant
to every claim; only that structured values become strings). -/
def pyStrList (l : List ℚ) : String :=
  "[" ++ String.intercalate (", ") (l.map toString) ++ "]"

/-- Python `str(...)` rendering of a dict value. -/
def pyStrDict (l : List (String × ℚ)) : String :=
  "\x7b" ++ String.intercalate (", ") (l.map fun kv => kv.1 ++ ": " ++ toString kv.2) ++ "\x7d"

/-- One step of `_set`'s serialization loop: `if type(hp[key]) in [list,
dict]: hp[key] = str(hp[key])`. -/
def HPVal.flat : HPVal → HPVal
  | .listV l => .str (pyStrList l)
  | .dictV l => .str (pyStrDict l)
  | v => v

/-- The whole serialization loop of `_set` over (the deep copy of) `hp`. -/
def flattenHP (hp : HP) : HP := hp.map fun kv => (kv.1, kv.2.flat)

/-- A stored loss: `np.float64` value or the `np.inf` sentinel (`⊤`). -/
abbrev Loss := WithTop ℚ

/-- One row of the results table.  `id` is both the pandas row label and the
`ID` column; the remaining fields are the fixed columns plus the flattened
hyperparameter columns of that row. -/
structure Row where
  id : ℕ
  loss : Loss
  epochs : ℕ
  history : Option String
  pending : Bool
  hp : HP
deriving DecidableEq

/-- Python exceptions raised by the source. -/
inductive Err where
  /-- `AssertionError` from `assert index in self.get_indices()` (spec name: IndexNotFound). -/
  | indexNotFound
  /-- `ValueError` from the `except OSError` branch (spec name: HistoryUnavailable). -/
  | historyUnavailable
  /-- `AssertionError` from `assert self.loss in history` (spec name: MissingMetric). -/
  | missingMetric
  /-- `AssertionError` from `assert hp` in `_set` (spec name: MissingHyperparameters). -/
  | missingHP
  /-- `ValueError` from `get_k_lowest` (spec name: InsufficientResults). -/
  | insufficientResults
  /-- `NotImplementedError` from an abstract method that was never overridden. -/
  | notImplemented
  /-- `AttributeError` from calling the undefined method `self.update`. -/
  | attributeError
  /-- `IndexError` from a positional `iloc` lookup that is out of range. -/
  | indexError
  /-- `KeyError` from a pandas column lookup on a frame lacking that column
  (e.g. `sort_values(by='Loss')` on the fresh column-less frame). -/
  | keyError
deriving DecidableEq

/-- A history artifact (the unpickled dictionary): metric sequences keyed by
name.  Only the configured loss key is ever read by the embedded operations. -/
abbrev Artifact := List (String × List ℚ)

/-- The file system: what `open`+`pkl.load` yields at a path, or `none` when
the file cannot be opened/read. -/
abbrev Files := String → Option Artifact

/-- The mutable attributes of a `ResultsTable` object.  `loss_key` is the
attribute `self.loss` (the metric key to minimize); `loss_summary` the active
summarizer; `hist2loss` the attribute created only by `update_hist2loss`;
`dtypes` the keys of the growing `self.dtypes` schema registry, in
registration order; `df` the in-memory frame; `csv` the rows most recently
written to `results.csv`. -/
structure State where
  loss_key : String
  loss_summary : List ℚ → ℚ
  hist2loss : Option (List ℚ → ℚ)
  dtypes : List String
  df : List Row
  csv : List Row

/-- The fixed display columns: the attribute `self.keys`, assigned once in
`__init__` and never mutated. -/
def tableKeys : List String := ["ID", "Loss", "Epochs", "History", "Pending"]

/-- The default summarizer `lambda loss_list: loss_list[-1]`.  It is only
ever applied to nonempty sequences (guarded by `epochs_seen > 0`), so the
default value for `[]` is immaterial. -/
def defaultSummary : List ℚ → ℚ := fun loss_list => loss_list.getLastD 0

/-- A freshly constructed `ResultsTable(dir)` (no `load_results`): empty
frame, the five fixed dtypes registered, and the empty frame already saved
by `_create_table`. -/
def State.init : State :=
  { loss_key := "loss"
    loss_summary := defaultSummary
    hist2loss := none
    dtypes := ["ID", "Loss", "Epochs", "History", "Pending"]
    df := []
    csv := [] }

/-- Stable insertion of a row into a loss-sorted list (the row goes before
the first row of equal or larger loss). -/
def insertByLoss (r : Row) : List Row → List Row
  | [] => [r]
  | x :: xs => if r.loss ≤ x.loss then r :: x :: xs else x :: insertByLoss r xs

/-- `df.sort_values(by=['Loss'])`: stable sort, ascending by the Loss
column. -/
def sortByLoss : List Row → List Row
  | [] => []
  | x :: xs => insertByLoss x (sortByLoss xs)

/-- Embeds `ResultsTable._save`: re-sorts `self.df` by Loss (the `'Loss' in
self.df.columns` guard only fails on the empty frame created by
`_create_table`, since columns are never removed) and rewrites the csv with
the resulting rows. -/
def State.save (s : State) : State :=
  let df' := if s.df.isEmpty then s.df else sortByLoss s.df
  { s with df := df', csv := df' }

/-- Embeds `ResultsTable._set`.  If the label is present, the four mutable
columns are updated in place; otherwise `assert hp` must pass, the deep copy
of `hp` is flattened, new keys are registered in `self.dtypes`, and a new
line is appended.  Either way `_save` runs afterwards.  The second component
of the result is the mapping the caller's `hp` reference still denotes after
the call: the source deep-copies `hp` before the serialization loop, so the
caller keeps the original mapping. -/
def State.set (s : State) (index : ℕ) (loss : Loss) (epochs : ℕ)
    (hp : Option HP) (historyfile : Option String) (pending : Bool) :
    Except Err (State × Option HP) :=
  if index ∈ s.df.map Row.id then
    let df' := s.df.map fun r =>
      if r.id = index then
        { r with loss := loss, epochs := epochs, history := historyfile, pending := pending }
      else r
    .ok (State.save { s with df := df' }, hp)
  else
    match hp with
    | none => .error .missingHP
    | some h =>
      if h.isEmpty then .error .missingHP
      else
        let h2 := flattenHP h
        let dtypes' := s.dtypes ++ ((h2.map Prod.fst).filter fun k => k ∉ s.dtypes)
        let row : Row :=
          { id := index, loss := loss, epochs := epochs, history := historyfile,
            pending := pending, hp := h2 }
        .ok (State.save { s with df := s.df ++ [row], dtypes := dtypes' }, some h)

/-- Embeds `get_indices()` (the `hp=None` path): the list of row labels. -/
def State.get_indices (s : State) : List ℕ := s.df.map Row.id

/-- The fresh-index computation of `on_start`: `0` when the table is empty,
otherwise `max(indices) + 1`. -/
def freshIndex (indices : List ℕ) : ℕ :=
  if indices.isEmpty then 0 else indices.foldl max 0 + 1

/-- Embeds `AbstractResultsTable.on_start`: allocate a fresh index, insert a
pending row via `_set` (with the defaults `loss=np.inf`, `epochs=0`,
`historyfile=None`), and return the index. -/
def State.on_start (s : State) (hp : HP) : Except Err (ℕ × State) :=
  let index := freshIndex s.get_indices
  (s.set index ⊤ 0 (some hp) none true).map fun p => (index, p.1)

/-- Embeds `AbstractResultsTable.on_finish`.  The result is the post-state
the caller observes together with the raised exception, if any; every check
of the source happens before `_set` runs, so on each failing branch the
state is returned unchanged. -/
def State.on_finish (s : State) (files : Files) (index : ℕ) (historyfile : String) :
    State × Option Err :=
  if index ∈ s.get_indices then
    match files historyfile with
    | none => (s, some .historyUnavailable)
    | some history =>
      match history.lookup s.loss_key with
      | none => (s, some .missingMetric)
      | some seq =>
        let epochs_seen := seq.length
        let lowest_loss : Loss := if 0 < epochs_seen then ((s.loss_summary seq : ℚ) : Loss) else ⊤
        match s.set index lowest_loss epochs_seen none (some historyfile) false with
        | .ok (s2, _) => (s2, none)
        | .error e => (s, some e)
  else (s, some .indexNotFound)

/-- Embeds `get_pending` as `ResultsTable` exposes it: the class never
overrides the abstract method, so calling it raises `NotImplementedError`. -/
def State.get_pending (_s : State) : Except Err (List ℕ) :=
  .error .notImplemented

/-- Modelled from the spec: `pending() -> set of index`: indices with
`pending=true`.  `ResultsTable` itself provides no implementation of
`get_pending` (see `State.get_pending`); this is the query the contract
describes, read off the table's Pending column. -/
def pendingSpec (s : State) : List ℕ :=
  ((s.df.filter fun r => r.pending).map Row.id)

/-- Embeds `ResultsTable.get_k_lowest`.  Its first step,
`self.df.sort_values(by='Loss')`, raises `KeyError` on the fresh column-less
frame created by `_create_table` — the Loss column appears with the first
appended row, and since rows are never removed it is missing exactly when
the frame is empty.  Otherwise: sort by Loss, drop pending rows when
`ignore_pending`, raise when fewer than `k` rows remain, else the first `k`
rows.  The function reads `self.df` without assigning to it, so the table is
not mutated. -/
def State.get_k_lowest (s : State) (k : ℕ) (ignore_pending : Bool) :
    Except Err (List Row) :=
  if s.df.isEmpty then .error .keyError
  else
    let data := sortByLoss s.df
    let data2 := if ignore_pending then data.filter fun r => r.pending == false else data
    if data2.length < k then .error .insufficientResults
    else .ok (data2.take k)

/-- The spec's wording of the same algorithm (refinement target for the
`get_k_lowest` claim): filter out pending rows first when requested, then
stable-sort ascending by loss, fail when fewer than `k` remain, else the
first `k`. -/
def get_k_lowest_spec (s : State) (k : ℕ) (ignore_pending : Bool) :
    Except Err (List Row) :=
  let rows := sortByLoss (if ignore_pending then s.df.filter (fun r => r.pending == false) else s.df)
  if rows.length < k then .error .insufficientResults
  else .ok (rows.take k)

/-- A value of the dictionary returned by `get_best`. -/
inductive Cell where
  | natC (n : ℕ)
  | lossC (l : Loss)
  | strC (s : Option String)
  | boolC (b : Bool)
  | hpC (v : HPVal)
  | noneC
deriving DecidableEq

/-- Column lookup `data[k].iloc[0]` on a single row: the five fixed columns
by name, any other name through the row's hyperparameter columns. -/
def Row.cell (r : Row) (k : String) : Cell :=
  if k = "ID" then .natC r.id
  else if k = "Loss" then .lossC r.loss
  else if k = "Epochs" then .natC r.epochs
  else if k = "History" then .strC r.history
  else if k = "Pending" then .boolC r.pending
  else
    match r.hp.lookup k with
    | some v => .hpC v
    | none => .noneC

/-- Embeds `ResultsTable.get_best`: `dict(zip(self.keys, [data[k].iloc[0] for
k in self.keys]))` over the single row of `get_k_lowest(k=1)`.  The empty
match arm is unreachable (a successful `k=1` query has a first row). -/
def State.get_best (s : State) (ignore_pending : Bool) :
    Except Err (List (String × Cell)) :=
  (s.get_k_lowest 1 ignore_pending).bind fun data =>
    match data with
    | r :: _ => .ok (tableKeys.map fun k => (k, r.cell k))
    | [] => .error .insufficientResults

/-- Embeds `ResultsTable.update_hist2loss`.  The source assigns
`self.hist2loss = hist2loss` (a new attribute — NOT the active
`self.loss_summary`) and then, for each row label, evaluates
`self.df.iloc[index]['History']` followed by `self.update(index,
historyfile)`.  `ResultsTable` defines no method `update`, so on a nonempty
frame the first iteration raises: `IndexError` already at the positional
`iloc` lookup when the first label is out of positional range, otherwise
`AttributeError` at `self.update`.  The attribute assignment precedes the
loop, so it is visible in the post-state either way. -/
def State.update_hist2loss (s : State) (hist2loss : List ℚ → ℚ) : State × Option Err :=
  let s1 := { s with hist2loss := some hist2loss }
  match s1.df with
  | [] => (s1, none)
  | r :: _ => if r.id < s1.df.length then (s1, some .attributeError) else (s1, some .indexError)

/-- A sequence of `on_start` calls, returning the indices in call order and
the final state (stopping at the first exception). -/
def runStarts : State → List HP → Except Err (List ℕ × State)
  | s, [] => .ok ([], s)
  | s, hp :: rest =>
    match s.on_start hp with
    | .error e => .error e
    | .ok (i, s1) =>
      match runStarts s1 rest with
      | .error e => .error e
      | .ok (is, s2) => .ok (i :: is, s2)

/-- The rows of a frame are in ascending Loss order. -/
def lossSorted (l : List Row) : Prop :=
  l.Pairwise fun a b => a.loss ≤ b.loss

/-! ### Concrete fixtures used by the closed evaluations below -/

/-- A hyperparameter assignment `{'lr': 1}`. -/
def hpA : HP := [("lr", HPVal.num 1)]

/-- A hyperparameter assignment `{'lr': 2}`. -/
def hpB : HP := [("lr", HPVal.num 2)]

/-- The rational 1/2 (`0.5`), as a kernel-reducible literal. -/
def half : ℚ := ⟨1, 2, by decide, by decide⟩

/-- The rational 1/5 (`0.2`), as a kernel-reducible literal. -/
def fifth : ℚ := ⟨1, 5, by decide, by decide⟩

/-- Sanity: `half` and `fifth` are the decimals named by the spec. -/
theorem half_fifth_eq : half = 0.5 ∧ fifth = 0.2 := by
  constructor
  · rw [half, Rat.mk'_eq_divInt, Rat.divInt_eq_div]; norm_num
  · rw [fifth, Rat.mk'_eq_divInt, Rat.divInt_eq_div]; norm_num

/-- A file system with two history files whose metric sequences are both
`[3]`. -/
def filesEq : Files := fun n =>
  if n = "h0" then some [("loss", [3])]
  else if n = "h1" then some [("loss", [3])]
  else none

/-- A file system where trial 0's history reads `[0.5]` and trial 1's reads
`[0.2]`. -/
def filesHalf : Files := fun n =>
  if n = "g0" then some [("loss", [half])]
  else if n = "g1" then some [("loss", [fifth])]
  else none

/-- Unwraps a successful `on_start` result to its state (fallback `init` on
the unused error arm). -/
def okState (r : Except Err (ℕ × State)) : State :=
  match r with
  | .ok p => p.2
  | .error _ => State.init

/-- State after `on_start({'lr': 1})` on a fresh table. -/
def eqS1 : State := okState (State.init.on_start hpA)

/-- State after a further `on_start({'lr': 2})`. -/
def eqS2 : State := okState (eqS1.on_start hpB)

/-- State after `on_finish(1, "h1")` (trial 1 finishes with loss 3). -/
def eqS3 : State := (eqS2.on_finish filesEq 1 "h1").1

/-- State after `on_finish(0, "h0")` (trial 0 also finishes with loss 3). -/
def eqS4 : State := (eqS3.on_finish filesEq 0 "h0").1

/-- State after trial 0 finishes with loss 0.5 (from `eqS2`). -/
def halfS3 : State := (eqS2.on_finish filesHalf 0 "g0").1

/-- State after trial 1 also finishes, with loss 0.2. -/
def halfS4 : State := (halfS3.on_finish filesHalf 1 "g1").1

/-! ### Lemmas about the stable sort -/

theorem mem_insertByLoss {a r : Row} {l : List Row} :
    a ∈ insertByLoss r l ↔ a = r ∨ a ∈ l := by
  induction l with
  | nil => simp [insertByLoss]
  | cons x xs ih =>
    by_cases h : r.loss ≤ x.loss
    · simp [insertByLoss, h]
    · simp only [insertByLoss, if_neg h, List.mem_cons, ih]
      tauto

theorem mem_sortByLoss {a : Row} {l : List Row} : a ∈ sortByLoss l ↔ a ∈ l := by
  induction l with
  | nil => simp [sortByLoss]
  | cons x xs ih => simp [sortByLoss, mem_insertByLoss, ih]

theorem lossSorted_insertByLoss {r : Row} {l : List Row} (h : lossSorted l) :
    lossSorted (insertByLoss r l) := by
  induction l with
  | nil => simp [insertByLoss, lossSorted]
  | cons x xs ih =>
    rw [lossSorted, List.pairwise_cons] at h
    by_cases hle : r.loss ≤ x.loss
    · rw [lossSorted]
      simp only [insertByLoss, if_pos hle]
      refine List.Pairwise.cons ?_ (List.Pairwise.cons h.1 h.2)
      intro a ha
      rcases List.mem_cons.mp ha with rfl | hm
      · exact hle
      · exact le_trans hle (h.1 a hm)
    · rw [lossSorted]
      simp only [insertByLoss, if_neg hle]
      refine List.Pairwise.cons ?_ (ih h.2)
      intro a ha
      rcases mem_insertByLoss.mp ha with rfl | hm
      · exact (lt_of_not_le hle).le
      · exact h.1 a hm

theorem lossSorted_sortByLoss (l : List Row) : lossSorted (sortByLoss l) := by
  induction l with
  | nil => exact List.Pairwise.nil
  | cons x xs ih => exact lossSorted_insertByLoss ih

theorem insertByLoss_of_le {r : Row} {l : List Row}
    (h : ∀ a ∈ l, r.loss ≤ a.loss) : insertByLoss r l = r :: l := by
  cases l with
  | nil => rfl
  | cons x xs => simp [insertByLoss, h x (by simp)]

theorem filter_insertByLoss (p : Row → Bool) {r : Row} {l : List Row} (hl : lossSorted l) :
    (insertByLoss r l).filter p
      = if p r then insertByLoss r (l.filter p) else l.filter p := by
  induction l with
  | nil => by_cases hp : p r <;> simp [insertByLoss, List.filter, hp]
  | cons x xs ih =>
    rw [lossSorted, List.pairwise_cons] at hl
    by_cases hle : r.loss ≤ x.loss
    · simp only [insertByLoss, if_pos hle]
      by_cases hp : p r
      · rw [if_pos hp, List.filter_cons, if_pos hp]
        rw [insertByLoss_of_le]
        intro a ha
        rcases List.mem_cons.mp (List.mem_of_mem_filter ha) with rfl | hm
        · exact hle
        · exact le_trans hle (hl.1 a hm)
      · rw [if_neg hp, List.filter_cons, if_neg hp]
    · simp only [insertByLoss, if_neg hle]
      have ihx := ih hl.2
      by_cases hp : p r <;> by_cases hx : p x
      · rw [if_pos hp] at ihx ⊢
        rw [List.filter_cons, if_pos hx, List.filter_cons, if_pos hx, ihx]
        rw [insertByLoss, if_neg hle]
      · rw [if_pos hp] at ihx ⊢
        rw [List.filter_cons, if_neg hx, List.filter_cons, if_neg hx, ihx]
      · rw [if_neg hp] at ihx ⊢
        rw [List.filter_cons, if_pos hx, List.filter_cons, if_pos hx, ihx]
      · rw [if_neg hp] at ihx ⊢
        rw [List.filter_cons, if_neg hx, List.filter_cons, if_neg hx, ihx]

theorem filter_sortByLoss (p : Row → Bool) (l : List Row) :
    (sortByLoss l).filter p = sortByLoss (l.filter p) := by
  induction l with
  | nil => rfl
  | cons x xs ih =>
    rw [sortByLoss, filter_insertByLoss p (lossSorted_sortByLoss xs), ih, List.filter_cons]
    by_cases hx : p x
    · rw [if_pos hx, if_pos hx, sortByLoss]
    · rw [if_neg hx, if_neg hx]

/-! ### Lemmas about fresh-index allocation -/

theorem le_foldl_max (l : List ℕ) : ∀ b, b ≤ l.foldl max b := by
  induction l with
  | nil => intro b; exact le_refl b
  | cons x xs ih => intro b; exact le_trans (le_max_left b x) (ih (max b x))

theorem mem_le_foldl_max {a : ℕ} {l : List ℕ} (h : a ∈ l) : ∀ b, a ≤ l.foldl max b := by
  induction l with
  | nil => cases h
  | cons x xs ih =>
    intro b
    rcases List.mem_cons.mp h with rfl | hm
    · exact le_trans (le_max_right b a) (le_foldl_max xs (max b a))
    · exact ih hm (max b x)

theorem lt_freshIndex {a : ℕ} {l : List ℕ} (h : a ∈ l) : a < freshIndex l := by
  have hne : l ≠ [] := List.ne_nil_of_mem h
  rw [freshIndex, if_neg (by simp [hne])]
  exact Nat.lt_succ_of_le (mem_le_foldl_max h 0)

/-! ### Lemmas about `_save` and `_set` -/

theorem save_df_eq (t : State) :
    t.save.df = if t.df.isEmpty then t.df else sortByLoss t.df := rfl

theorem save_csv_eq (t : State) : t.save.csv = t.save.df := rfl

theorem lossSorted_save (t : State) : lossSorted t.save.df := by
  rw [save_df_eq]
  by_cases h : t.df.isEmpty
  · rw [if_pos h, List.isEmpty_iff.mp h]
    exact List.Pairwise.nil
  · rw [if_neg h]
    exact lossSorted_sortByLoss _

theorem mem_save_df {t : State} {r : Row} : r ∈ t.save.df ↔ r ∈ t.df := by
  rw [save_df_eq]
  by_cases h : t.df.isEmpty
  · rw [if_pos h]
  · rw [if_neg h]; exact mem_sortByLoss

theorem save_loss_key (t : State) : t.save.loss_key = t.loss_key := rfl

theorem set_ok_save {s : State} {i : ℕ} {l : Loss} {e : ℕ} {hp : Option HP}
    {hf : Option String} {p : Bool} {st : State} {chp : Option HP}
    (h : s.set i l e hp hf p = .ok (st, chp)) : ∃ t : State, st = State.save t := by
  unfold State.set at h
  split at h
  · simp only [Except.ok.injEq, Prod.mk.injEq] at h
    exact ⟨_, h.1.symm⟩
  · split at h
    · cases h
    · split at h
      · cases h
      · simp only [Except.ok.injEq, Prod.mk.injEq] at h
        exact ⟨_, h.1.symm⟩

/-! ### Branch lemmas for `on_finish` -/

theorem on_finish_not_mem {s : State} {files : Files} {index : ℕ} {historyfile : String}
    (hidx : index ∉ s.get_indices) :
    s.on_finish files index historyfile = (s, some Err.indexNotFound) := by
  unfold State.on_finish
  rw [if_neg hidx]

theorem on_finish_no_file {s : State} {files : Files} {index : ℕ} {historyfile : String}
    (hidx : index ∈ s.get_indices) (hf : files historyfile = none) :
    s.on_finish files index historyfile = (s, some Err.historyUnavailable) := by
  unfold State.on_finish
  rw [if_pos hidx, hf]

theorem on_finish_no_key {s : State} {files : Files} {index : ℕ} {historyfile : String}
    {art : Artifact}
    (hidx : index ∈ s.get_indices) (hf : files historyfile = some art)
    (hk : art.lookup s.loss_key = none) :
    s.on_finish files index historyfile = (s, some Err.missingMetric) := by
  unfold State.on_finish
  rw [if_pos hidx]
  simp only [hf, hk]

theorem on_finish_ok {s : State} {files : Files} {index : ℕ} {historyfile : String}
    {art : Artifact} {seq : List ℚ}
    (hidx : index ∈ s.get_indices) (hf : files historyfile = some art)
    (hk : art.lookup s.loss_key = some seq) :
    s.on_finish files index historyfile
      = (State.save { s with df := s.df.map fun r =>
            if r.id = index then
              { r with
                  loss := if 0 < seq.length then ((s.loss_summary seq : ℚ) : Loss) else ⊤,
                  epochs := seq.length, history := some historyfile, pending := false }
            else r }, none) := by
  have hidx' : index ∈ s.df.map Row.id := hidx
  unfold State.on_finish State.set
  rw [if_pos hidx]
  simp only [hf, hk, if_pos hidx']

/-! ### Characterization of a successful `on_start` -/

theorem mem_map_id_save {t : State} {a : ℕ} :
    a ∈ t.save.df.map Row.id ↔ a ∈ t.df.map Row.id := by
  simp only [List.mem_map]
  constructor
  · rintro ⟨r, hr, rfl⟩
    exact ⟨r, mem_save_df.mp hr, rfl⟩
  · rintro ⟨r, hr, rfl⟩
    exact ⟨r, mem_save_df.mpr hr, rfl⟩

theorem on_start_ok {s : State} {hp : HP} {i : ℕ} {s1 : State}
    (h : s.on_start hp = .ok (i, s1)) :
    i = freshIndex s.get_indices ∧
    (∀ a ∈ s.get_indices, a < i) ∧
    (∀ a, a ∈ s1.get_indices ↔ a = i ∨ a ∈ s.get_indices) ∧
    hp ≠ [] := by
  have hnot : freshIndex s.get_indices ∉ s.df.map Row.id := fun hmem =>
    absurd (lt_freshIndex hmem) (lt_irrefl _)
  simp only [State.on_start, State.set] at h
  rw [if_neg hnot] at h
  by_cases hemp : hp.isEmpty
  · rw [if_pos hemp] at h
    simp only [Except.map] at h
    exact Except.noConfusion h
  · rw [if_neg hemp] at h
    simp only [Except.map, Except.ok.injEq, Prod.mk.injEq] at h
    obtain ⟨hi, hs⟩ := h
    subst hi
    subst hs
    refine ⟨rfl, ?_, ?_, ?_⟩
    · intro a ha
      exact lt_freshIndex ha
    · intro a
      simp only [State.get_indices]
      rw [mem_map_id_save]
      simp only [List.map_append, List.mem_append, List.map_cons, List.map_nil,
        List.mem_singleton]
      tauto
    · intro hnil
      rw [hnil] at hemp
      exact hemp rfl

theorem on_start_ok_save {s : State} {hp : HP} {i : ℕ} {s1 : State}
    (h : s.on_start hp = .ok (i, s1)) : ∃ t : State, s1 = State.save t := by
  simp only [State.on_start] at h
  cases hset : s.set (freshIndex s.get_indices) ⊤ 0 (some hp) none true with
  | error e =>
    rw [hset] at h
    simp only [Except.map] at h
    exact Except.noConfusion h
  | ok pr =>
    obtain ⟨st, chp⟩ := pr
    rw [hset] at h
    simp only [Except.map, Except.ok.injEq, Prod.mk.injEq] at h
    obtain ⟨t, ht⟩ := set_ok_save hset
    exact ⟨t, h.2 ▸ ht⟩

/-- The final state of a successful `runStarts` (fallback: the start state on
the unused error arm). -/
def runStartsState (s : State) (hps : List HP) : State :=
  match runStarts s hps with
  | .ok p => p.2
  | .error _ => s

/-! ### Claim theorems -/

/-- C1: for any sequence of `on_start` calls the returned indices are
pairwise strictly increasing (each is greater than every previously returned
one), every returned index exceeds every index already present in the
ledger, and the first call on an empty ledger returns 0
(`max(existing) + 1`, or 0 when the table is empty). -/
theorem on_start_index_monotonic (hps : List HP) :
    ∀ (s : State) (out : List ℕ) (s' : State),
      runStarts s hps = .ok (out, s') →
      out.Pairwise (· < ·) ∧
      (∀ a ∈ s.get_indices, ∀ b ∈ out, a < b) ∧
      (s.get_indices = [] → out.head? = hps.head?.map fun _ => 0) := by
  induction hps with
  | nil =>
    intro s out s' h
    simp only [runStarts, Except.ok.injEq, Prod.mk.injEq] at h
    obtain ⟨h1, h2⟩ := h
    subst h1
    exact ⟨List.Pairwise.nil, by simp, by simp⟩
  | cons hp rest ih =>
    intro s out s' h
    simp only [runStarts] at h
    cases h1 : s.on_start hp with
    | error e => simp only [h1] at h; exact Except.noConfusion h
    | ok p =>
      obtain ⟨i, s1⟩ := p
      simp only [h1] at h
      cases h2 : runStarts s1 rest with
      | error e => simp only [h2] at h; exact Except.noConfusion h
      | ok q =>
        obtain ⟨is, s2⟩ := q
        simp only [h2, Except.ok.injEq, Prod.mk.injEq] at h
        obtain ⟨hout, hs2⟩ := h
        subst hout
        subst hs2
        obtain ⟨hfresh, hlt, hmem, _⟩ := on_start_ok h1
        obtain ⟨ihPW, ihGT, _⟩ := ih s1 is s2 h2
        refine ⟨?_, ?_, ?_⟩
        · exact List.Pairwise.cons
            (fun b hb => ihGT i ((hmem i).mpr (Or.inl rfl)) b hb) ihPW
        · intro a ha b hb
          rcases List.mem_cons.mp hb with rfl | hbs
          · exact hlt a ha
          · exact ihGT a ((hmem a).mpr (Or.inr ha)) b hbs
        · intro hempty
          have hz : i = 0 := by rw [hfresh, hempty]; rfl
          subst hz
          simp

/-- C1 witness: two `on_start` calls on a fresh ledger return 0 then 1,
strictly increasing with the first equal to 0. -/
theorem on_start_index_monotonic_witness :
    ([0, 1] : List ℕ).Pairwise (· < ·) ∧ ([0, 1] : List ℕ).head? = some 0 := by
  have h := on_start_index_monotonic [hpA, hpB] State.init [0, 1]
    (runStartsState State.init [hpA, hpB]) rfl
  exact ⟨h.1, h.2.2 rfl⟩

/-- C4: when `on_finish` raises (unknown index, unreadable history file, or
missing metric key), the observable post-state is exactly the pre-state: no
field of any record — in particular the Pending flag, loss, epochs, and
history reference — has been mutated. -/
theorem on_finish_atomic_on_failure (s : State) (files : Files) (index : ℕ)
    (historyfile : String) (e : Err)
    (h : (s.on_finish files index historyfile).2 = some e) :
    (s.on_finish files index historyfile).1 = s := by
  by_cases hidx : index ∈ s.get_indices
  · cases hf : files historyfile with
    | none => rw [on_finish_no_file hidx hf]
    | some art =>
      cases hk : art.lookup s.loss_key with
      | none => rw [on_finish_no_key hidx hf hk]
      | some seq =>
        rw [on_finish_ok hidx hf hk] at h
        exact Option.noConfusion h
  · rw [on_finish_not_mem hidx]

/-- C4 witness: `on_finish` with an unknown index raises IndexNotFound and
leaves the fresh ledger unchanged. -/
theorem on_finish_atomic_on_failure_witness :
    (State.init.on_finish filesEq 5 "h0").2 = some Err.indexNotFound ∧
    (State.init.on_finish filesEq 5 "h0").1 = State.init :=
  ⟨rfl, on_finish_atomic_on_failure State.init filesEq 5 "h0" Err.indexNotFound rfl⟩

/-- C9: after every completed mutation (`on_start`, a successful `on_finish`,
and any successful `_set`), the persisted csv holds exactly the rows of the
in-memory frame, sorted by Loss ascending. -/
theorem write_through_persistence :
    (∀ (s : State) (hp : HP) (i : ℕ) (s1 : State),
        s.on_start hp = .ok (i, s1) → s1.csv = s1.df ∧ lossSorted s1.df) ∧
    (∀ (s : State) (files : Files) (i : ℕ) (hf : String) (s1 : State),
        s.on_finish files i hf = (s1, none) → s1.csv = s1.df ∧ lossSorted s1.df) ∧
    (∀ (s : State) (i : ℕ) (l : Loss) (e : ℕ) (hp : Option HP) (hf : Option String)
        (p : Bool) (s1 : State) (chp : Option HP),
        s.set i l e hp hf p = .ok (s1, chp) → s1.csv = s1.df ∧ lossSorted s1.df) := by
  have hsave : ∀ t : State,
      (State.save t).csv = (State.save t).df ∧ lossSorted (State.save t).df :=
    fun t => ⟨save_csv_eq t, lossSorted_save t⟩
  refine ⟨?_, ?_, ?_⟩
  · intro s hp i s1 h
    obtain ⟨t, ht⟩ := on_start_ok_save h
    rw [ht]
    exact hsave t
  · intro s files i hf s1 h
    by_cases hidx : i ∈ s.get_indices
    · cases hfile : files hf with
      | none =>
        rw [on_finish_no_file hidx hfile] at h
        injection h with h1 h2
        exact Option.noConfusion h2
      | some art =>
        cases hkey : art.lookup s.loss_key with
        | none =>
          rw [on_finish_no_key hidx hfile hkey] at h
          injection h with h1 h2
          exact Option.noConfusion h2
        | some seq =>
          rw [on_finish_ok hidx hfile hkey] at h
          injection h with h1 h2
          rw [← h1]
          exact hsave _
    · rw [on_finish_not_mem hidx] at h
      injection h with h1 h2
      exact Option.noConfusion h2
  · intro s i l e hp hf p s1 chp h
    obtain ⟨t, ht⟩ := set_ok_save h
    rw [ht]
    exact hsave t

/-- C9 witness: after `on_start({'lr': 1})` on a fresh ledger the csv equals
the frame and the frame is sorted by Loss. -/
theorem write_through_persistence_witness :
    eqS1.csv = eqS1.df ∧ lossSorted eqS1.df :=
  write_through_persistence.1 State.init hpA 0 eqS1 rfl

/-- C3: a successful `on_finish(index, historyfile)` whose artifact holds the
metric sequence `seq` leaves the record at `index` with `epochs` equal to the
length of `seq`, `loss` equal to the summarizer applied to `seq` when the
sequence is nonempty and `+inf` (`⊤`) when it is empty, `history` updated to
the given reference, and `pending` set to false. -/
theorem on_finish_postcondition (s : State) (files : Files) (index : ℕ)
    (historyfile : String) (s' : State) (art : Artifact) (seq : List ℚ)
    (hfile : files historyfile = some art)
    (hkey : art.lookup s.loss_key = some seq)
    (h : s.on_finish files index historyfile = (s', none)) :
    (∃ r ∈ s'.df, r.id = index) ∧
    ∀ r ∈ s'.df, r.id = index →
      r.epochs = seq.length ∧
      r.loss = (if 0 < seq.length then ((s.loss_summary seq : ℚ) : Loss) else ⊤) ∧
      r.history = some historyfile ∧
      r.pending = false := by
  by_cases hidx : index ∈ s.get_indices
  · rw [on_finish_ok hidx hfile hkey] at h
    injection h with h1 h2
    subst h1
    constructor
    · obtain ⟨r0, hr0, hid⟩ := List.mem_map.mp hidx
      refine ⟨_, mem_save_df.mpr (List.mem_map_of_mem _ hr0), ?_⟩
      simp [hid]
    · intro r hr hrid
      obtain ⟨r0, hr0, hfr⟩ := List.mem_map.mp (mem_save_df.mp hr)
      by_cases h0 : r0.id = index
      · rw [if_pos h0] at hfr
        subst hfr
        exact ⟨rfl, rfl, rfl, rfl⟩
      · rw [if_neg h0] at hfr
        subst hfr
        exact absurd hrid h0
  · rw [on_finish_not_mem hidx] at h
    injection h with h1 h2
    exact Option.noConfusion h2

/-- The record of trial 1 after it finishes with metric sequence `[3]`. -/
def rowFin1 : Row :=
  { id := 1, loss := ((3 : ℚ) : Loss), epochs := 1, history := some ("h1"),
    pending := false, hp := [("lr", HPVal.num 2)] }

/-- C3 witness: in the two-trial run, after trial 1 finishes with metric
sequence `[3]` its record has one epoch, loss 3, the history reference
`"h1"`, and is no longer pending. -/
theorem on_finish_postcondition_witness :
    rowFin1.epochs = 1 ∧ rowFin1.loss = ((3 : ℚ) : Loss) ∧
    rowFin1.history = some ("h1") ∧ rowFin1.pending = false :=
  (on_finish_postcondition eqS2 filesEq 1 "h1" eqS3 [("loss", [3])] [3]
    rfl rfl rfl).2 rowFin1 (by decide) rfl

/-- C8: `on_finish` raises IndexNotFound exactly when the index is not in the
table; for a known index it raises HistoryUnavailable exactly when the
history file cannot be read; for a known index and readable artifact it
raises MissingMetric exactly when the artifact lacks the configured metric
key; and with all three conditions met it succeeds. -/
theorem on_finish_error_taxonomy (s : State) (files : Files) (index : ℕ)
    (historyfile : String) :
    ((s.on_finish files index historyfile).2 = some Err.indexNotFound
        ↔ index ∉ s.get_indices) ∧
    (index ∈ s.get_indices →
      ((s.on_finish files index historyfile).2 = some Err.historyUnavailable
        ↔ files historyfile = none)) ∧
    (index ∈ s.get_indices → ∀ art, files historyfile = some art →
      ((s.on_finish files index historyfile).2 = some Err.missingMetric
        ↔ art.lookup s.loss_key = none)) ∧
    (index ∈ s.get_indices → ∀ art seq, files historyfile = some art →
      art.lookup s.loss_key = some seq →
      (s.on_finish files index historyfile).2 = none) := by
  by_cases hidx : index ∈ s.get_indices
  · cases hf : files historyfile with
    | none =>
      rw [on_finish_no_file hidx hf]
      refine ⟨by simp [hidx], fun _ => by simp [hf], ?_, ?_⟩
      · intro _ art hart
        exact Option.noConfusion hart
      · intro _ art seq hart _
        exact Option.noConfusion hart
    | some art0 =>
      cases hk : art0.lookup s.loss_key with
      | none =>
        rw [on_finish_no_key hidx hf hk]
        refine ⟨by simp [hidx], fun _ => by simp [hf], ?_, ?_⟩
        · intro _ art hart
          injection hart with hh
          subst hh
          simp [hk]
        · intro _ art seq hart hseq
          injection hart with hh
          subst hh
          rw [hk] at hseq
          exact Option.noConfusion hseq
      | some seq0 =>
        rw [on_finish_ok hidx hf hk]
        refine ⟨by simp [hidx], fun _ => by simp [hf], ?_, fun _ _ _ _ _ => rfl⟩
        intro _ art hart
        injection hart with hh
        subst hh
        simp [hk]
  · rw [on_finish_not_mem hidx]
    exact ⟨by simp [hidx], fun hin => absurd hin hidx,
      fun hin => absurd hin hidx, fun hin => absurd hin hidx⟩

/-- C8 witness: in the two-trial run, finishing the known index 0 with a
readable artifact containing the metric key succeeds (no exception). -/
theorem on_finish_error_taxonomy_witness :
    (eqS2.on_finish filesEq 0 "h0").2 = none :=
  (on_finish_error_taxonomy eqS2 filesEq 0 "h0").2.2.2 (by decide)
    [("loss", [3])] [3] rfl rfl

/-- C6 (amended): on any ledger that has ever held a row,
`get_k_lowest(k, ignore_pending)` computes exactly the
filter-then-stable-sort description (drop pending rows when requested,
stable sort ascending by loss, fail with InsufficientResults when fewer than
`k` rows remain, else the first `k`; the code sorts before filtering, which
is equivalent); on the fresh ledger with no rows the sort itself raises
KeyError (the frame has no Loss column yet) rather than
InsufficientResults; and on two finished trials with losses 0.5 and 0.2
`get_best` returns the trial with loss 0.2.  Ties between equal losses
follow the frame's current stored row order, not ascending index (see the
counterexample). -/
theorem get_k_lowest_algorithm :
    (∀ (s : State) (k : ℕ) (ip : Bool), s.df ≠ [] →
        s.get_k_lowest k ip = get_k_lowest_spec s k ip) ∧
    (∀ (s : State) (k : ℕ) (ip : Bool), s.df = [] →
        s.get_k_lowest k ip = .error Err.keyError) ∧
    (halfS4.get_best true).map (fun l => l.lookup ("ID"))
      = .ok (some (Cell.natC 1)) ∧
    (halfS4.get_best true).map (fun l => l.lookup ("Loss"))
      = .ok (some (Cell.lossC (fifth : Loss))) := by
  refine ⟨?_, ?_, rfl, rfl⟩
  · intro s k ip hne
    have hem : ¬ s.df.isEmpty = true := by
      simp only [List.isEmpty_iff]
      exact hne
    cases ip <;>
      simp [State.get_k_lowest, get_k_lowest_spec, filter_sortByLoss, hem]
  · intro s k ip he
    have hem : s.df.isEmpty = true := by simp [he]
    simp [State.get_k_lowest, hem]

/-- C6 witness: on the concrete four-step ledger (a frame with rows) the
code's `get_k_lowest` agrees with the filter-then-sort description, and on
the fresh ledger the query raises KeyError. -/
theorem get_k_lowest_algorithm_witness :
    eqS4.get_k_lowest 1 true = get_k_lowest_spec eqS4 1 true ∧
    State.init.get_k_lowest 1 true = .error Err.keyError :=
  ⟨get_k_lowest_algorithm.1 eqS4 1 true (by decide),
   get_k_lowest_algorithm.2.1 State.init 1 true rfl⟩

/-- C6 counterexample: trials 0 and 1 finish (in reverse order) with equal
losses 3; both rows are non-pending with loss 3, yet `get_best` returns ID 1,
not the lower index 0 — the tie is broken by the frame's stored order, which
the in-place update plus re-sort on save has left as `[row 1, row 0]`. -/
theorem get_best_tie_counterexample :
    State.init.on_start hpA = .ok (0, eqS1) ∧
    eqS1.on_start hpB = .ok (1, eqS2) ∧
    eqS2.on_finish filesEq 1 "h1" = (eqS3, none) ∧
    eqS3.on_finish filesEq 0 "h0" = (eqS4, none) ∧
    eqS4.df.map (fun r => (r.id, r.loss, r.pending))
      = [(1, ((3 : ℚ) : Loss), false), (0, ((3 : ℚ) : Loss), false)] ∧
    (eqS4.get_best true).map (fun l => l.lookup ("ID"))
      = .ok (some (Cell.natC 1)) :=
  ⟨rfl, rfl, rfl, rfl, by decide, rfl⟩

/-- C7 (amended): `get_best` repackages the single row of
`get_k_lowest(1, ignore_pending)` into a record keyed by exactly the five
fixed display columns `ID, Loss, Epochs, History, Pending` — the registered
hyperparameter columns are not included. -/
theorem get_best_fixed_keys (s : State) (ip : Bool) (r : Row) (rest : List Row)
    (h : s.get_k_lowest 1 ip = .ok (r :: rest)) :
    s.get_best ip = .ok (tableKeys.map fun k => (k, r.cell k)) ∧
    (tableKeys.map fun k => (k, r.cell k)).map Prod.fst = tableKeys := by
  constructor
  · unfold State.get_best
    rw [h]
    rfl
  · rfl

/-- C7 witness: on the concrete two-trial ledger, `get_best` returns the
finished record of trial 1 keyed by exactly the five fixed columns. -/
theorem get_best_fixed_keys_witness :
    eqS4.get_best true = .ok (tableKeys.map fun k => (k, rowFin1.cell k)) ∧
    (tableKeys.map fun k => (k, rowFin1.cell k)).map Prod.fst = tableKeys :=
  get_best_fixed_keys eqS4 true rowFin1 [] rfl

/-- C7 counterexample: trial rows carry the registered hyperparameter column
`lr` (it is in the schema registry `dtypes`), yet the record returned by
`get_best` has exactly the five fixed keys and no `lr` key. -/
theorem get_best_keys_counterexample :
    eqS4.dtypes = ["ID", "Loss", "Epochs", "History", "Pending", "lr"] ∧
    (eqS4.get_best true).map (fun l => l.map Prod.fst) = .ok tableKeys ∧
    "lr" ∉ tableKeys :=
  ⟨rfl, rfl, by decide⟩

/-- C2: `ResultsTable` never overrides the abstract `get_pending`, so the
pending query raises `NotImplementedError` on every state — even though the
underlying Pending column does satisfy the claimed invariant: after
`on_start` returns index `i` the column marks `i` pending, and after a
successful `on_finish(i, ref)` it no longer does (shown here through the
spec-modelled `pendingSpec` on the concrete two-trial run). -/
theorem get_pending_not_implemented :
    State.init.on_start hpA = .ok (0, eqS1) ∧
    eqS1.get_pending = .error Err.notImplemented ∧
    pendingSpec eqS1 = [0] ∧
    eqS1.on_start hpB = .ok (1, eqS2) ∧
    pendingSpec eqS2 = [0, 1] ∧
    eqS2.on_finish filesEq 1 "h1" = (eqS3, none) ∧
    pendingSpec eqS3 = [0] ∧
    eqS3.get_pending = .error Err.notImplemented :=
  ⟨rfl, rfl, by decide, rfl, by decide, rfl, by decide, rfl⟩

/-- A replacement summarizer (`np.min`-like) for exercising
`update_hist2loss`. -/
def fNew : List ℚ → ℚ := fun l => l.foldr min 0

/-- C5: `update_hist2loss` on a ledger with rows raises `AttributeError`
(the method `self.update` it calls does not exist on `ResultsTable`), and it
rebinds only the separate attribute `hist2loss` — the active summarizer
`loss_summary` used by `on_finish` is untouched, no row is recomputed, and
nothing is persisted. -/
theorem update_hist2loss_attribute_error :
    (eqS4.update_hist2loss fNew).2 = some Err.attributeError ∧
    (eqS4.update_hist2loss fNew).1.loss_summary = eqS4.loss_summary ∧
    (eqS4.update_hist2loss fNew).1.hist2loss = some fNew ∧
    (eqS4.update_hist2loss fNew).1.df = eqS4.df ∧
    (eqS4.update_hist2loss fNew).1.csv = eqS4.csv :=
  ⟨rfl, rfl, rfl, rfl, rfl⟩

/-- C10: `_set` (and hence `on_start`, which passes its `hp` argument
through) never mutates the caller's hyperparameter mapping: the returned
caller-view equals the argument, because the serialization loop runs on a
deep copy.  The second conjunct shows the property is not vacuous: the
flattening really rewrites structured values, so without the copy the
caller's mapping would change. -/
theorem set_preserves_caller_hp :
    (∀ (s : State) (i : ℕ) (l : Loss) (e : ℕ) (hp : HP) (hf : Option String)
        (p : Bool) (st : State) (chp : Option HP),
        s.set i l e (some hp) hf p = .ok (st, chp) → chp = some hp) ∧
    flattenHP [("xs", HPVal.listV [1, 2])] ≠ [("xs", HPVal.listV [1, 2])] := by
  constructor
  · intro s i l e hp hf p st chp h
    simp only [State.set] at h
    split at h
    · simp only [Except.ok.injEq, Prod.mk.injEq] at h
      exact h.2.symm
    · split at h
      · exact Except.noConfusion h
      · simp only [Except.ok.injEq, Prod.mk.injEq] at h
        exact h.2.symm
  · decide

/-- C10 witness: the first `on_start`'s `_set` call on a fresh ledger
returns the caller's mapping unchanged. -/
theorem set_preserves_caller_hp_witness :
    (some hpA : Option HP) = some hpA :=
  set_preserves_caller_hp.1 State.init 0 ⊤ 0 hpA none true eqS1 (some hpA) rfl

end Sherpa
